import Mathlib

/-!
Shallow embedding of the text-diff core of the Smart-Diff repository
(`src/utils/diffEngine.ts`): the tokenizer and the LCS-based differ
`computeDiff`, together with proofs of the specified properties.

Strings are modelled as lists of Unicode code points (`List Char`).
The source operates on JavaScript UTF-16 strings; for the character
classes used by the tokenizer the two views agree: surrogate code
units are neither word characters, nor CJK (U+4E00-U+9FA5), nor
ECMAScript whitespace, so both halves of a surrogate pair fall into
the symbol class and are merged with their neighbours exactly as the
corresponding single code point is in this model.
-/

namespace SmartDiff

/-- `[a-zA-Z0-9_]` of the tokenizer regex in `diffEngine.ts`. -/
def isWordChar (c : Char) : Bool :=
  (65 ≤ c.toNat && c.toNat ≤ 90) || (97 ≤ c.toNat && c.toNat ≤ 122) ||
  (48 ≤ c.toNat && c.toNat ≤ 57) || c.toNat == 95

/-- `[一-龥]` of the tokenizer regex: CJK Unified Ideographs,
restricted range U+4E00-U+9FA5 inclusive. -/
def isCJK (c : Char) : Bool :=
  0x4E00 ≤ c.toNat && c.toNat ≤ 0x9FA5

/-- ECMAScript `\s`: WhiteSpace and LineTerminator code points. -/
def isJsWhitespace (c : Char) : Bool :=
  (9 ≤ c.toNat && c.toNat ≤ 13) || c.toNat == 32 || c.toNat == 0xA0 ||
  c.toNat == 0x1680 || (0x2000 ≤ c.toNat && c.toNat ≤ 0x200A) ||
  c.toNat == 0x2028 || c.toNat == 0x2029 || c.toNat == 0x202F ||
  c.toNat == 0x205F || c.toNat == 0x3000 || c.toNat == 0xFEFF

/-- The four alternatives of the tokenizer regex, as character classes. -/
inductive TokenClass where
  | word
  | cjk
  | space
  | symbol
deriving DecidableEq, Repr

/-- Which regex alternative a character starts: the alternatives are
tried in order, and their character sets are disjoint. -/
def charClass (c : Char) : TokenClass :=
  if isWordChar c then .word
  else if isCJK c then .cjk
  else if isJsWhitespace c then .space
  else .symbol

/-- `tokenize` of `diffEngine.ts`: repeated leftmost matching of
`[a-zA-Z0-9_]+|[一-龥]|\s+|[^a-zA-Z0-9_\s一-龥]+`.
A CJK character is a single-character token; any other character
starts a maximal run of characters of its own class. -/
def tokenize : List Char → List (List Char)
  | [] => []
  | c :: rest =>
    if isCJK c then
      [c] :: tokenize rest
    else
      (c :: rest.takeWhile (fun d => charClass d == charClass c)) ::
        tokenize (rest.dropWhile (fun d => charClass d == charClass c))
termination_by l => l.length
decreasing_by
  · simp only [List.length_cons]
    omega
  · have h := (List.dropWhile_suffix (l := rest)
      (fun d => charClass d == charClass c)).length_le
    simp only [List.length_cons]
    omega

/-- `DiffPart` of `types.ts`. The source fields `added` / `removed` are
optional booleans that are only ever absent or `true`; absence is
modelled as `false`. -/
structure DiffPart where
  value : List Char
  added : Bool := false
  removed : Bool := false
deriving DecidableEq, Repr

/-- Entry `lcsMatrix[i][j]` of `computeDiff`, indexed by the REVERSED
prefixes of the two token lists: `lcsTab ro rn` is the table entry for
the prefixes whose reversals are `ro` and `rn`. The equations are
exactly the fill loop of the source: 0 on the base row and column,
diagonal + 1 on equal last tokens, max of the two neighbours
otherwise. -/
def lcsTab : List (List Char) → List (List Char) → Nat
  | [], _ => 0
  | _ :: _, [] => 0
  | a :: ro, b :: rn =>
    if a = b then lcsTab ro rn + 1
    else max (lcsTab ro (b :: rn)) (lcsTab (a :: ro) rn)

/-- The backtrace loop of `computeDiff`, on the reversed prefixes of
the token lists (`ro.length` plays `i`, `rn.length` plays `j`, the
heads are `oldTokens[i-1]` / `newTokens[j-1]`). Each loop iteration
`unshift`s one part, so the part for the current cell goes after the
parts produced by the rest of the walk. -/
def backtrace : List (List Char) → List (List Char) → List DiffPart
  | [], [] => []
  | [], b :: rn => backtrace [] rn ++ [{ value := b, added := true }]
  | a :: ro, [] => backtrace ro [] ++ [{ value := a, removed := true }]
  | a :: ro, b :: rn =>
    if a = b then
      backtrace ro rn ++ [{ value := a }]
    else if lcsTab ro (b :: rn) ≤ lcsTab (a :: ro) rn then
      backtrace (a :: ro) rn ++ [{ value := b, added := true }]
    else
      backtrace ro (b :: rn) ++ [{ value := a, removed := true }]
termination_by ro rn => ro.length + rn.length
decreasing_by all_goals simp only [List.length_cons]; omega

/-- The merge loop of `computeDiff`: `cur` is the mutable `current`,
the list argument is the unprocessed tail of `parts`. Consecutive
parts with identical `(added, removed)` tags are combined by
concatenating their values. -/
def mergeAux (cur : DiffPart) : List DiffPart → List DiffPart
  | [] => [cur]
  | nxt :: rest =>
    if cur.added = nxt.added ∧ cur.removed = nxt.removed then
      mergeAux { cur with value := cur.value ++ nxt.value } rest
    else
      cur :: mergeAux nxt rest

/-- The merge pass of `computeDiff` (empty input yields `[]`). -/
def mergeParts : List DiffPart → List DiffPart
  | [] => []
  | p :: rest => mergeAux p rest

/-- `computeDiff` of `diffEngine.ts`: tokenize both sides, walk the
LCS table from `(N, M)` back to `(0, 0)`, then merge adjacent parts
with equal tags. -/
def computeDiff (oldText newText : List Char) : List DiffPart :=
  mergeParts (backtrace (tokenize oldText).reverse (tokenize newText).reverse)

/-- The backtrace `while` loop with an explicit iteration budget, with
the three branch guards written exactly as in the source; it returns
`none` if the budget runs out before `i` and `j` both reach 0, or if
at some iteration no branch guard holds. `backtrace_fuel_spec` shows
neither happens within `i + j` iterations. -/
def backtraceFuel : Nat → List (List Char) → List (List Char) → Option (List DiffPart)
  | _, [], [] => some []
  | 0, _ :: _, _ => none
  | 0, _, _ :: _ => none
  | fuel + 1, a :: ro, b :: rn =>
    if a = b then
      (backtraceFuel fuel ro rn).map (· ++ [{ value := a }])
    else if lcsTab ro (b :: rn) ≤ lcsTab (a :: ro) rn then
      (backtraceFuel fuel (a :: ro) rn).map (· ++ [{ value := b, added := true }])
    else if lcsTab (a :: ro) rn < lcsTab ro (b :: rn) then
      (backtraceFuel fuel ro (b :: rn)).map (· ++ [{ value := a, removed := true }])
    else
      none
  | fuel + 1, [], b :: rn =>
    (backtraceFuel fuel [] rn).map (· ++ [{ value := b, added := true }])
  | fuel + 1, a :: ro, [] =>
    (backtraceFuel fuel ro []).map (· ++ [{ value := a, removed := true }])

/-- Value concatenation of the parts whose `removed` flag is not set:
the modified-side reading of a span list. -/
def newSide (l : List DiffPart) : List Char :=
  ((l.filter (fun p => !p.removed)).map (fun p => p.value)).flatten

/-- Value concatenation of the parts whose `added` flag is not set:
the original-side reading of a span list. -/
def oldSide (l : List DiffPart) : List Char :=
  ((l.filter (fun p => !p.added)).map (fun p => p.value)).flatten

/-- No two adjacent parts carry the identical `(added, removed)` tag
pair. -/
def noAdjSameTag : List DiffPart → Bool
  | [] => true
  | [_] => true
  | p :: q :: rest =>
    !(p.added == q.added && p.removed == q.removed) && noAdjSameTag (q :: rest)

theorem tokenize_flatten (s : List Char) : (tokenize s).flatten = s := by
  induction s using tokenize.induct with
  | case1 => simp [tokenize]
  | case2 c rest h ih => simp [tokenize, h, ih]
  | case3 c rest h ih =>
    simp [tokenize, h, ih, List.takeWhile_append_dropWhile]

theorem tokenize_ne_nil (s : List Char) : ∀ t ∈ tokenize s, t ≠ [] := by
  induction s using tokenize.induct with
  | case1 => simp [tokenize]
  | case2 c rest h ih =>
    simp only [tokenize, h, if_true]
    intro t ht
    rcases List.mem_cons.mp ht with h1 | h2
    · simp [h1]
    · exact ih t h2
  | case3 c rest h ih =>
    simp only [tokenize, h, if_false]
    intro t ht
    rcases List.mem_cons.mp ht with h1 | h2
    · simp [h1]
    · exact ih t h2

theorem newSide_append (l₁ l₂ : List DiffPart) :
    newSide (l₁ ++ l₂) = newSide l₁ ++ newSide l₂ := by
  simp [newSide]

theorem oldSide_append (l₁ l₂ : List DiffPart) :
    oldSide (l₁ ++ l₂) = oldSide l₁ ++ oldSide l₂ := by
  simp [oldSide]

theorem newSide_cons (p : DiffPart) (l : List DiffPart) :
    newSide (p :: l) = (if p.removed then [] else p.value) ++ newSide l := by
  by_cases h : p.removed <;> simp [newSide, h]

theorem oldSide_cons (p : DiffPart) (l : List DiffPart) :
    oldSide (p :: l) = (if p.added then [] else p.value) ++ oldSide l := by
  by_cases h : p.added <;> simp [oldSide, h]

theorem newSide_nil : newSide [] = [] := rfl

theorem oldSide_nil : oldSide [] = [] := rfl

theorem backtrace_newSide (ro rn : List (List Char)) :
    newSide (backtrace ro rn) = rn.reverse.flatten := by
  induction ro, rn using backtrace.induct with
  | case1 => simp [backtrace, newSide_nil]
  | case2 b rn ih =>
    simp only [backtrace, newSide_append, ih, newSide_cons, newSide_nil]
    simp
  | case3 a ro ih =>
    simp only [backtrace, newSide_append, ih, newSide_cons, newSide_nil]
    simp
  | case4 ro b rn ih =>
    simp only [backtrace, if_true]
    rw [newSide_append, ih]
    simp [newSide_cons, newSide_nil]
  | case5 a ro b rn h hle ih =>
    simp only [backtrace, if_neg h, if_pos hle, newSide_append, ih,
      newSide_cons, newSide_nil]
    simp
  | case6 a ro b rn h hle ih =>
    simp only [backtrace, if_neg h, if_neg hle, newSide_append, ih,
      newSide_cons, newSide_nil]
    simp

theorem backtrace_oldSide (ro rn : List (List Char)) :
    oldSide (backtrace ro rn) = ro.reverse.flatten := by
  induction ro, rn using backtrace.induct with
  | case1 => simp [backtrace, oldSide_nil]
  | case2 b rn ih =>
    simp only [backtrace, oldSide_append, ih, oldSide_cons, oldSide_nil]
    simp
  | case3 a ro ih =>
    simp only [backtrace, oldSide_append, ih, oldSide_cons, oldSide_nil]
    simp
  | case4 ro b rn ih =>
    simp only [backtrace, if_true]
    rw [oldSide_append, ih]
    simp [oldSide_cons, oldSide_nil]
  | case5 a ro b rn h hle ih =>
    simp only [backtrace, if_neg h, if_pos hle, oldSide_append, ih,
      oldSide_cons, oldSide_nil]
    simp
  | case6 a ro b rn h hle ih =>
    simp only [backtrace, if_neg h, if_neg hle, oldSide_append, ih,
      oldSide_cons, oldSide_nil]
    simp

theorem mergeAux_newSide (l : List DiffPart) :
    ∀ cur, newSide (mergeAux cur l) = newSide (cur :: l) := by
  induction l with
  | nil => intro cur; rfl
  | cons nxt rest ih =>
    intro cur
    simp only [mergeAux]
    split
    · rename_i h
      rw [ih]
      rw [newSide_cons, newSide_cons, newSide_cons]
      by_cases hr : cur.removed <;>
        simp [hr, ← h.2, List.append_assoc]
    · simp [newSide_cons, ih]

theorem mergeAux_oldSide (l : List DiffPart) :
    ∀ cur, oldSide (mergeAux cur l) = oldSide (cur :: l) := by
  induction l with
  | nil => intro cur; rfl
  | cons nxt rest ih =>
    intro cur
    simp only [mergeAux]
    split
    · rename_i h
      rw [ih]
      rw [oldSide_cons, oldSide_cons, oldSide_cons]
      by_cases ha : cur.added <;>
        simp [ha, ← h.1, List.append_assoc]
    · simp [oldSide_cons, ih]

theorem mergeParts_newSide (l : List DiffPart) :
    newSide (mergeParts l) = newSide l := by
  cases l with
  | nil => rfl
  | cons p rest => exact mergeAux_newSide rest p

theorem mergeParts_oldSide (l : List DiffPart) :
    oldSide (mergeParts l) = oldSide l := by
  cases l with
  | nil => rfl
  | cons p rest => exact mergeAux_oldSide rest p

/-- C1. Round-trip reconstruction: concatenating, in order, the values
of the spans of `computeDiff oldText newText` whose `removed` flag is
not true yields `newText` exactly, and concatenating the values of the
spans whose `added` flag is not true yields `oldText` exactly. -/
theorem computeDiff_round_trip (oldText newText : List Char) :
    (((computeDiff oldText newText).filter (fun p => !p.removed)).map
        (fun p => p.value)).flatten = newText ∧
    (((computeDiff oldText newText).filter (fun p => !p.added)).map
        (fun p => p.value)).flatten = oldText := by
  constructor
  · show newSide (computeDiff oldText newText) = newText
    rw [computeDiff, mergeParts_newSide, backtrace_newSide,
      List.reverse_reverse, tokenize_flatten]
  · show oldSide (computeDiff oldText newText) = oldText
    rw [computeDiff, mergeParts_oldSide, backtrace_oldSide,
      List.reverse_reverse, tokenize_flatten]

/-- C2. Tokenizer lossless partition: `tokenize` splits any input,
arbitrary Unicode included, into consecutive tokens whose in-order
concatenation is the input itself (so every character lands in exactly
one token), and the empty string yields the empty sequence. -/
theorem tokenize_lossless (s : List Char) :
    (tokenize s).flatten = s ∧ tokenize ([] : List Char) = [] :=
  ⟨tokenize_flatten s, by simp [tokenize]⟩

/-- `computeDiff` computed through the budgeted loop, with budget
`i + j` (the initial token counts): `none` would mean the loop needed
more iterations than that, or reached a state no branch handles. -/
def computeDiffFuel (oldText newText : List Char) : Option (List DiffPart) :=
  (backtraceFuel
      ((tokenize oldText).reverse.length + (tokenize newText).reverse.length)
      (tokenize oldText).reverse (tokenize newText).reverse).map mergeParts

theorem backtraceFuel_spec :
    ∀ fuel ro rn, ro.length + rn.length ≤ fuel →
      backtraceFuel fuel ro rn = some (backtrace ro rn) := by
  intro fuel
  induction fuel with
  | zero =>
    intro ro rn h
    match ro, rn with
    | [], [] => simp [backtraceFuel, backtrace]
    | a :: ro, rn => simp at h
    | [], b :: rn => simp at h
  | succ fuel ih =>
    intro ro rn h
    match ro, rn with
    | [], [] => simp [backtraceFuel, backtrace]
    | [], b :: rn =>
      simp only [backtraceFuel, backtrace]
      rw [ih [] rn (by simp at h ⊢; omega)]
      rfl
    | a :: ro, [] =>
      simp only [backtraceFuel, backtrace]
      rw [ih ro [] (by simp at h ⊢; omega)]
      rfl
    | a :: ro, b :: rn =>
      simp only [backtraceFuel, backtrace]
      simp only [List.length_cons] at h
      by_cases hab : a = b
      · rw [if_pos hab, if_pos hab, ih ro rn (by omega)]
        rfl
      · rw [if_neg hab, if_neg hab]
        by_cases hle : lcsTab ro (b :: rn) ≤ lcsTab (a :: ro) rn
        · rw [if_pos hle, if_pos hle, ih (a :: ro) rn (by simp; omega)]
          rfl
        · rw [if_neg hle, if_neg hle,
            if_pos (Nat.lt_of_not_le hle),
            ih ro (b :: rn) (by simp; omega)]
          rfl

/-- C4. Totality: on every pair of inputs the backtrace loop
terminates within `i + j` iterations, one of its three branches
applying at every step (the budgeted loop never returns `none`), and
the result is exactly `computeDiff` — never a partial or error
result. -/
theorem computeDiff_total (oldText newText : List Char) :
    computeDiffFuel oldText newText = some (computeDiff oldText newText) := by
  rw [computeDiffFuel, backtraceFuel_spec _ _ _ (Nat.le_refl _)]
  rfl

/-- `List.all` is preserved by the merge loop, for any property that
survives merging two parts into one. -/
theorem mergeAux_all (P : DiffPart → Bool)
    (hP : ∀ c n : DiffPart, P c = true → P n = true →
      P { c with value := c.value ++ n.value } = true) :
    ∀ l cur, P cur = true → l.all P = true →
      (mergeAux cur l).all P = true := by
  intro l
  induction l with
  | nil =>
    intro cur hc _
    simp [mergeAux, hc]
  | cons nxt rest ih =>
    intro cur hc hall
    simp only [List.all_cons, Bool.and_eq_true] at hall
    simp only [mergeAux]
    split
    · exact ih _ (hP _ _ hc hall.1) hall.2
    · simp [List.all_cons, hc, ih _ hall.1 hall.2]

theorem mergeParts_all (P : DiffPart → Bool)
    (hP : ∀ c n : DiffPart, P c = true → P n = true →
      P { c with value := c.value ++ n.value } = true)
    (l : List DiffPart) (hall : l.all P = true) :
    (mergeParts l).all P = true := by
  cases l with
  | nil => simp [mergeParts]
  | cons p rest =>
    simp only [List.all_cons, Bool.and_eq_true] at hall
    exact mergeAux_all P hP rest p hall.1 hall.2

theorem backtrace_all_tagOk (ro rn : List (List Char)) :
    (backtrace ro rn).all (fun p => !(p.added && p.removed)) = true := by
  induction ro, rn using backtrace.induct with
  | case1 => simp [backtrace]
  | case2 b rn ih =>
    simp only [backtrace, List.all_append, Bool.and_eq_true]
    exact ⟨ih, by simp⟩
  | case3 a ro ih =>
    simp only [backtrace, List.all_append, Bool.and_eq_true]
    exact ⟨ih, by simp⟩
  | case4 ro b rn ih =>
    simp only [backtrace, if_true, List.all_append, Bool.and_eq_true]
    exact ⟨ih, by simp⟩
  | case5 a ro b rn h hle ih =>
    simp only [backtrace, if_neg h, if_pos hle, List.all_append,
      Bool.and_eq_true]
    exact ⟨ih, by simp⟩
  | case6 a ro b rn h hle ih =>
    simp only [backtrace, if_neg h, if_neg hle, List.all_append,
      Bool.and_eq_true]
    exact ⟨ih, by simp⟩

/-- C5. Tag discipline: every span of any `computeDiff` result has
mutually exclusive `added` and `removed` flags — they are never both
true (both false being the unchanged case). -/
theorem computeDiff_tags_exclusive (oldText newText : List Char) :
    (computeDiff oldText newText).all
      (fun p => !(p.added && p.removed)) = true := by
  refine mergeParts_all _ ?_ _ (backtrace_all_tagOk _ _)
  intro c n hc _
  exact hc

theorem backtrace_all_value_ne_nil (ro rn : List (List Char)) :
    (∀ t ∈ ro, t ≠ []) → (∀ t ∈ rn, t ≠ []) →
    (backtrace ro rn).all (fun p => !p.value.isEmpty) = true := by
  induction ro, rn using backtrace.induct with
  | case1 => intro _ _; simp [backtrace]
  | case2 b rn ih =>
    intro hro hrn
    simp only [backtrace, List.all_append, Bool.and_eq_true]
    refine ⟨ih hro (fun t ht => hrn t (List.mem_cons_of_mem _ ht)), ?_⟩
    simpa using hrn b (by simp)
  | case3 a ro ih =>
    intro hro hrn
    simp only [backtrace, List.all_append, Bool.and_eq_true]
    refine ⟨ih (fun t ht => hro t (List.mem_cons_of_mem _ ht)) hrn, ?_⟩
    simpa using hro a (by simp)
  | case4 ro b rn ih =>
    intro hro hrn
    simp only [backtrace, if_true, List.all_append, Bool.and_eq_true]
    refine ⟨ih (fun t ht => hro t (List.mem_cons_of_mem _ ht))
      (fun t ht => hrn t (List.mem_cons_of_mem _ ht)), ?_⟩
    simpa using hro b (by simp)
  | case5 a ro b rn h hle ih =>
    intro hro hrn
    simp only [backtrace, if_neg h, if_pos hle, List.all_append,
      Bool.and_eq_true]
    refine ⟨ih hro (fun t ht => hrn t (List.mem_cons_of_mem _ ht)), ?_⟩
    simpa using hrn b (by simp)
  | case6 a ro b rn h hle ih =>
    intro hro hrn
    simp only [backtrace, if_neg h, if_neg hle, List.all_append,
      Bool.and_eq_true]
    refine ⟨ih (fun t ht => hro t (List.mem_cons_of_mem _ ht)) hrn, ?_⟩
    simpa using hro a (by simp)

/-- C10. No empty spans: every span of any `computeDiff` result has a
non-empty value — every token matches at least one character and the
merge pass only concatenates token values. -/
theorem computeDiff_values_nonempty (oldText newText : List Char) :
    (computeDiff oldText newText).all (fun p => !p.value.isEmpty) = true := by
  refine mergeParts_all _ ?_ _ (backtrace_all_value_ne_nil _ _ ?_ ?_)
  · intro c n hc _
    rcases hv : c.value with _ | ⟨x, xs⟩
    · rw [hv] at hc
      simp at hc
    · have hv2 : ({ c with value := c.value ++ n.value }).value
          = x :: (xs ++ n.value) := by
        simp [hv]
      simp [hv2]
  · intro t ht
    exact tokenize_ne_nil oldText t (List.mem_reverse.mp ht)
  · intro t ht
    exact tokenize_ne_nil newText t (List.mem_reverse.mp ht)

theorem noAdjSameTag_cons_cons (p q : DiffPart) (l : List DiffPart) :
    noAdjSameTag (p :: q :: l)
      = (!(p.added == q.added && p.removed == q.removed)
          && noAdjSameTag (q :: l)) :=
  rfl

theorem mergeAux_head :
    ∀ (l : List DiffPart) (cur : DiffPart), ∃ v tl,
      mergeAux cur l
        = { value := v, added := cur.added, removed := cur.removed } :: tl := by
  intro l
  induction l with
  | nil =>
    intro cur
    exact ⟨cur.value, [], rfl⟩
  | cons nxt rest ih =>
    intro cur
    simp only [mergeAux]
    split
    · exact ih _
    · exact ⟨cur.value, mergeAux nxt rest, rfl⟩

theorem mergeAux_noAdj :
    ∀ (l : List DiffPart) (cur : DiffPart),
      noAdjSameTag (mergeAux cur l) = true := by
  intro l
  induction l with
  | nil => intro cur; rfl
  | cons nxt rest ih =>
    intro cur
    simp only [mergeAux]
    split
    · exact ih _
    · rename_i h
      obtain ⟨v, tl, heq⟩ := mergeAux_head rest nxt
      have h2 := ih nxt
      rw [heq] at h2 ⊢
      rw [noAdjSameTag_cons_cons, Bool.and_eq_true]
      have hf : (cur.added == nxt.added && cur.removed == nxt.removed)
          = false := by
        by_cases ha : cur.added = nxt.added
        · by_cases hr : cur.removed = nxt.removed
          · exact absurd ⟨ha, hr⟩ h
          · simp [hr]
        · simp [ha]
      exact ⟨by simp [hf], h2⟩

theorem mergeParts_noAdj (l : List DiffPart) :
    noAdjSameTag (mergeParts l) = true := by
  cases l with
  | nil => rfl
  | cons p rest => exact mergeAux_noAdj rest p

theorem mergeAux_of_noAdj :
    ∀ (l : List DiffPart) (cur : DiffPart),
      noAdjSameTag (cur :: l) = true → mergeAux cur l = cur :: l := by
  intro l
  induction l with
  | nil => intro cur _; rfl
  | cons nxt rest ih =>
    intro cur hna
    rw [noAdjSameTag_cons_cons, Bool.and_eq_true] at hna
    have hd : ¬(cur.added = nxt.added ∧ cur.removed = nxt.removed) := by
      intro hc
      rw [hc.1, hc.2] at hna
      simp at hna
    simp only [mergeAux, if_neg hd]
    rw [ih nxt hna.2]

theorem mergeParts_of_noAdj (l : List DiffPart)
    (h : noAdjSameTag l = true) : mergeParts l = l := by
  cases l with
  | nil => rfl
  | cons p rest => exact mergeAux_of_noAdj rest p h

/-- C7. Merge idempotence: the list returned by `computeDiff` never
has two adjacent spans with the identical `(added, removed)` tag pair,
so re-running the merge pass on it is a no-op; and the merge pass only
concatenates values of same-tag spans, leaving both sides' total
content unchanged. -/
theorem computeDiff_merge_idempotent (oldText newText : List Char)
    (l : List DiffPart) :
    noAdjSameTag (computeDiff oldText newText) = true ∧
    mergeParts (computeDiff oldText newText) = computeDiff oldText newText ∧
    newSide (mergeParts l) = newSide l ∧
    oldSide (mergeParts l) = oldSide l :=
  ⟨mergeParts_noAdj _,
   mergeParts_of_noAdj _ (mergeParts_noAdj _),
   mergeParts_newSide l, mergeParts_oldSide l⟩

theorem tokenize_ne_nil_of_ne_nil (s : List Char) (h : s ≠ []) :
    tokenize s ≠ [] := by
  intro ht
  apply h
  rw [← tokenize_flatten s, ht]
  rfl

theorem backtrace_refl (r : List (List Char)) :
    backtrace r r
      = r.reverse.map (fun t => ({ value := t } : DiffPart)) := by
  induction r with
  | nil => simp [backtrace]
  | cons a r ih =>
    simp only [backtrace, if_true]
    rw [ih]
    simp

theorem backtrace_nil_left (rn : List (List Char)) :
    backtrace [] rn
      = rn.reverse.map
          (fun t => ({ value := t, added := true } : DiffPart)) := by
  induction rn with
  | nil => simp [backtrace]
  | cons b rn ih =>
    simp only [backtrace]
    rw [ih]
    simp

theorem backtrace_nil_right (ro : List (List Char)) :
    backtrace ro []
      = ro.reverse.map
          (fun t => ({ value := t, removed := true } : DiffPart)) := by
  induction ro with
  | nil => simp [backtrace]
  | cons a ro ih =>
    simp only [backtrace]
    rw [ih]
    simp

theorem mergeAux_run (ad rm : Bool) :
    ∀ (ts : List (List Char)) (v : List Char),
      mergeAux { value := v, added := ad, removed := rm }
          (ts.map (fun t => { value := t, added := ad, removed := rm }))
        = [{ value := v ++ ts.flatten, added := ad, removed := rm }] := by
  intro ts
  induction ts with
  | nil =>
    intro v
    simp [mergeAux]
  | cons t ts ih =>
    intro v
    simp only [List.map_cons, mergeAux]
    split
    · rw [ih (v ++ t)]
      simp [List.append_assoc]
    · rename_i hcon
      simp at hcon

/-- C8. Identity: diffing a text against itself yields a single
unchanged span carrying the whole text, and the empty sequence when
the text is empty. -/
theorem computeDiff_identity (s : List Char) :
    computeDiff s s
      = if s = [] then [] else [({ value := s } : DiffPart)] := by
  by_cases h : s = []
  · subst h
    rw [if_pos rfl]
    simp [computeDiff, tokenize, backtrace, mergeParts]
  · rw [if_neg h]
    obtain ⟨t, ts, hts⟩ :=
      List.exists_cons_of_ne_nil (tokenize_ne_nil_of_ne_nil s h)
    have hflat : t ++ ts.flatten = s := by
      have hf := tokenize_flatten s
      rw [hts] at hf
      simpa using hf
    rw [computeDiff, hts, backtrace_refl, List.reverse_reverse]
    simp only [List.map_cons, mergeParts]
    rw [mergeAux_run, hflat]

/-- C9. Pure insertion and pure deletion: diffing the empty text
against a non-empty text yields a single added span carrying the whole
new text, and symmetrically a single removed span carrying the whole
old text. -/
theorem computeDiff_pure_insert_delete (s : List Char) (h : s ≠ []) :
    computeDiff [] s = [{ value := s, added := true }] ∧
    computeDiff s [] = [{ value := s, removed := true }] := by
  obtain ⟨t, ts, hts⟩ :=
    List.exists_cons_of_ne_nil (tokenize_ne_nil_of_ne_nil s h)
  have hflat : t ++ ts.flatten = s := by
    have hf := tokenize_flatten s
    rw [hts] at hf
    simpa using hf
  have h0 : tokenize ([] : List Char) = [] := by simp [tokenize]
  constructor
  · rw [computeDiff, hts, h0]
    simp only [List.reverse_nil]
    rw [backtrace_nil_left, List.reverse_reverse]
    simp only [List.map_cons, mergeParts]
    rw [mergeAux_run, hflat]
  · rw [computeDiff, hts, h0]
    simp only [List.reverse_nil]
    rw [backtrace_nil_right, List.reverse_reverse]
    simp only [List.map_cons, mergeParts]
    rw [mergeAux_run, hflat]

/-- C9 witness at the concrete input "hello". -/
theorem computeDiff_pure_insert_delete_wit :
    (['h','e','l','l','o'] : List Char) ≠ [] ∧
    computeDiff [] ['h','e','l','l','o']
      = [{ value := ['h','e','l','l','o'], added := true }] ∧
    computeDiff ['h','e','l','l','o'] []
      = [{ value := ['h','e','l','l','o'], removed := true }] :=
  ⟨by decide,
   (computeDiff_pure_insert_delete ['h','e','l','l','o'] (by decide)).1,
   (computeDiff_pure_insert_delete ['h','e','l','l','o'] (by decide)).2⟩

/-- C3. The backtrace tie-break: with both indices positive and the
two current tokens unequal, when `cell(i,j-1) >= cell(i-1,j)` (so in
particular on ties) the step emits an added span for the new-side
token and moves left; a removed span for the old-side token is emitted
exactly in the remaining case `cell(i,j-1) < cell(i-1,j)` — or when
`j` is 0, which the last conjunct covers. -/
theorem backtrace_tiebreak (a b : List Char) (ro rn : List (List Char))
    (hne : a ≠ b) :
    (lcsTab ro (b :: rn) ≤ lcsTab (a :: ro) rn →
      backtrace (a :: ro) (b :: rn)
        = backtrace (a :: ro) rn ++ [{ value := b, added := true }]) ∧
    (lcsTab (a :: ro) rn < lcsTab ro (b :: rn) →
      backtrace (a :: ro) (b :: rn)
        = backtrace ro (b :: rn) ++ [{ value := a, removed := true }]) ∧
    backtrace (a :: ro) []
      = backtrace ro [] ++ [{ value := a, removed := true }] := by
  refine ⟨?_, ?_, ?_⟩
  · intro hle
    simp only [backtrace]
    rw [if_neg hne, if_pos hle]
  · intro hlt
    simp only [backtrace]
    rw [if_neg hne, if_neg (Nat.not_le.mpr hlt)]
  · simp only [backtrace]

/-- C3 witness: one concrete tie (equal LCS scores, added emitted) and
one concrete strict inequality (removed emitted). -/
theorem backtrace_tiebreak_wit :
    ((['x'] : List Char) ≠ ['y'] ∧
      backtrace [['x']] [['y']]
        = backtrace [['x']] [] ++ [{ value := ['y'], added := true }]) ∧
    ((['x'] : List Char) ≠ ['d'] ∧
      backtrace [['x'], ['d'], ['c']] [['d'], ['c'], ['y']]
        = backtrace [['d'], ['c']] [['d'], ['c'], ['y']]
            ++ [{ value := ['x'], removed := true }]) :=
  ⟨⟨by decide,
    (backtrace_tiebreak ['x'] ['y'] [] [] (by decide)).1
      (by simp [lcsTab])⟩,
   ⟨by decide,
    (backtrace_tiebreak ['x'] ['d'] [['d'], ['c']] [['c'], ['y']]
        (by decide)).2.1
      (by simp [lcsTab])⟩⟩

/-- C6. CJK tokenization: `isCJK` holds exactly on U+4E00-U+9FA5; a
CJK character always becomes its own single-character token, never
merged with its neighbours; and concretely
`tokenize "Hello你好!" = ["Hello", "你", "好", "!"]`. -/
theorem tokenize_cjk (c : Char) (rest : List Char) :
    (isCJK c = true ↔ 0x4E00 ≤ c.toNat ∧ c.toNat ≤ 0x9FA5) ∧
    (isCJK c = true → tokenize (c :: rest) = [c] :: tokenize rest) ∧
    tokenize ['H','e','l','l','o','你','好','!']
      = [['H','e','l','l','o'], ['你'], ['好'], ['!']] := by
  refine ⟨?_, ?_, ?_⟩
  · simp [isCJK, Bool.and_eq_true, decide_eq_true_eq]
  · intro h
    simp [tokenize, h]
  · simp [tokenize, charClass, isCJK, isWordChar, isJsWhitespace]

/-- C6 witness: a CJK character adjacent to another CJK character is
its own token. -/
theorem tokenize_cjk_wit :
    isCJK '你' = true ∧
    tokenize ('你' :: ['好']) = ['你'] :: tokenize ['好'] :=
  ⟨by decide, (tokenize_cjk '你' ['好']).2.1 (by decide)⟩

end SmartDiff
